import Mathlib

/-!
Shallow embedding of the `db-fork` microbenchmark core, covering:

* `src/microbench/sampling.py` — `sort_population`, `get_sampled_indices`;
* `src/dblib/timer.py` — the `Timer` buckets and the derived statistics;
* `src/microbench/runner.py` — `build_branch_tree` and the branch+insert
  traversal of `BenchmarkSuite.branch_insert_op`;
* `src/microbench/tasks.py` — the `DatabaseTask` primary-key cache
  (`all_pks`), `insert`, and the cache effect of the other operations.

Python `float` values are modelled as rationals (`ℚ`), Python `int` as `ℤ`
(or `ℕ` where the source value is a length), Python `set` as `Finset`,
Python `dict` lookups with a default as total functions.
-/

namespace DbFork

/-- Truncation of a rational toward zero, the conversion performed both by
Python's `int(...)` and by numpy's `.astype(int)` on the floats that the
source manipulates. -/
def truncQ (q : ℚ) : ℤ := if 0 ≤ q then ⌊q⌋ else ⌈q⌉

/-! ### sampling.py -/

/-- Projection `x[idx]` used as the sort key in `sort_population`
(`key=lambda x: x[idx]`); tuples of column values are modelled as `List ℤ`,
out-of-range access defaults to `0` to keep the function total. -/
def tupleKey (x : List ℤ) (idx : ℕ) : ℤ := x.getD idx 0

/-- `sampling.sort_population(population, idx)`: `population.sort(key=lambda
x: x[idx])`. Python's `list.sort` is a stable comparison sort on the
projected key; a stable sort by a key is extensionally unique, so it is
modelled by the stable insertion sort over the key comparison. -/
def sort_population (population : List (List ℤ)) (idx : ℕ) : List (List ℤ) :=
  List.insertionSort (fun a b => tupleKey a idx ≤ tupleKey b idx) population

/-- The sampling-pool size computed by `get_sampled_indices`:
`max(1, min(max_sampling_size, int(population_size * sampling_rate)))`. -/
def sampleSize (population_size : ℕ) (sampling_rate : ℚ)
    (max_sampling_size : ℤ) : ℤ :=
  max 1 (min max_sampling_size (truncQ ((population_size : ℚ) * sampling_rate)))

/-- `sampling.get_sampled_indices(population_size, sampling_rate,
max_sampling_size, dist_lambda)`. Raising `ValueError` is modelled by
`Except.error`; the distribution callback returns a list of floats for a
requested sample count. The scaling step is
`(raw_indices * (population_size - 1)).astype(int)`. -/
def get_sampled_indices (population_size : ℕ) (sampling_rate : ℚ)
    (max_sampling_size : ℤ) (dist_lambda : ℕ → List ℚ) :
    Except String (List ℤ) :=
  if ¬ (0 < sampling_rate ∧ sampling_rate ≤ 1) then
    Except.error "Sampling rate must be between 0.0 and 1.0."
  else
    let sampling_size := sampleSize population_size sampling_rate max_sampling_size
    let raw_indices := dist_lambda sampling_size.toNat
    Except.ok (raw_indices.map (fun v => truncQ (v * ((population_size : ℚ) - 1))))

/-- Ordering that the spec sentence claims for `sort_population`: ascending
by the key at `idx`, with ties broken by the natural ordering of the
remaining fields. Written from the spec's words, only to state the
counterexample; `List.Lex` is the natural (lexicographic) tuple order on
the remaining fields `eraseIdx idx`. -/
def specTieOrder (idx : ℕ) (a b : List ℤ) : Prop :=
  tupleKey a idx < tupleKey b idx ∨
    (tupleKey a idx = tupleKey b idx ∧
      (a.eraseIdx idx = b.eraseIdx idx ∨
        List.Lex (fun x y : ℤ => x < y) (a.eraseIdx idx) (b.eraseIdx idx)))

instance (idx : ℕ) : DecidableRel (specTieOrder idx) := by
  unfold specTieOrder
  infer_instance

/-! ### dblib/timer.py -/

/-- The four buckets of `timer.Timer`. The Python tag dictionaries hand back
`[]` for an absent tag (`dict.get(tag, [])`), so they are modelled as total
functions defaulting to `[]`. -/
structure Timer where
  each_cursor_elapsed : List ℚ
  cursor_elapsed_by_tag : String → List ℚ
  each_connection_elapsed : List ℚ
  connection_elapsed_by_tag : String → List ℚ

/-- `Timer.reset` (also the state built by `Timer.__init__`). -/
def Timer.reset : Timer :=
  { each_cursor_elapsed := []
    cursor_elapsed_by_tag := fun _ => []
    each_connection_elapsed := []
    connection_elapsed_by_tag := fun _ => [] }

/-- `Timer.collect_cursor_elapsed(duration, tag)`: always appends to the
unlabeled bucket; appends to the tag's bucket when `tag` is truthy
(non-empty). -/
def Timer.collect_cursor_elapsed (t : Timer) (duration : ℚ) (tag : String) :
    Timer :=
  { t with
    each_cursor_elapsed := t.each_cursor_elapsed ++ [duration]
    cursor_elapsed_by_tag :=
      if tag = "" then t.cursor_elapsed_by_tag
      else fun tg =>
        if tg = tag then t.cursor_elapsed_by_tag tg ++ [duration]
        else t.cursor_elapsed_by_tag tg }

/-- `Timer.report_cursor_elapsed(tag)`: the tag's bucket when `tag` is
truthy, else the unlabeled bucket. -/
def Timer.report_cursor_elapsed (t : Timer) (tag : String) : List ℚ :=
  if tag = "" then t.each_cursor_elapsed else t.cursor_elapsed_by_tag tag

/-- A finite sequence of `collect_cursor_elapsed` calls applied in order,
each given as a `(duration, tag)` pair. -/
def Timer.applyCursorCollects (t : Timer) (ops : List (ℚ × String)) : Timer :=
  ops.foldl (fun acc op => acc.collect_cursor_elapsed op.1 op.2) t

/-- `timer.get_average`: `0.0` on an empty list, else `np.mean` (the
arithmetic mean). -/
def get_average (times : List ℚ) : ℚ :=
  if times = [] then 0 else times.sum / times.length

/-- `timer.get_stddev`: `0.0` on an empty list, else `np.std`. numpy is an
external collaborator, so the non-empty branch is parametrised by the
library function it calls. -/
def get_stddev (np_std : List ℚ → ℚ) (times : List ℚ) : ℚ :=
  if times = [] then 0 else np_std times

/-- `timer.get_sum`: `0.0` on an empty list, else `np.sum`. -/
def get_sum (times : List ℚ) : ℚ :=
  if times = [] then 0 else times.sum

/-! ### runner.py — build_branch_tree -/

/-- The branch-name format string `branch_d{d}_n{n}`. -/
def branchName (d n : ℕ) : String :=
  "branch_d" ++ toString d ++ "_n" ++ toString n

/-- One iteration of the outer loop of `build_branch_tree`: for
`idx, parent_node in enumerate(current_level_nodes)` and `i in
range(degree)`, the child `branch_d{d+1}_n{idx*degree+i+1}` is created
under `parent_node`. A level is the list of its node names in creation
order; the parent of the child at level position `idx*degree + i` is the
node at position `idx` of the previous level. -/
def nextLevelNames (d degree : ℕ) (cur : List String) : List String :=
  cur.enum.flatMap (fun p =>
    (List.range degree).map (fun i => branchName (d + 1) (p.1 * degree + i + 1)))

/-- The loop body of `build_branch_tree`, threading
`(levels built so far, current_level_nodes, total_branches)`;
`total_branches` grows by one per created child, i.e. by the length of the
new level. -/
def buildStep (degree : ℕ) (acc : List (List String) × List String × ℕ)
    (d : ℕ) : List (List String) × List String × ℕ :=
  let next := nextLevelNames d degree acc.2.1
  (acc.1 ++ [next], next, acc.2.2 + next.length)

/-- `runner.build_branch_tree(root_branch, tree_depth, degree)`. The anytree
structure is represented level by level (level 0 is `[root_branch]`);
the returned number is `total_branches`. -/
def build_branch_tree (root_branch : String) (tree_depth degree : ℕ) :
    List (List String) × ℕ :=
  let res := (List.range tree_depth).foldl (buildStep degree)
    ([[root_branch]], [root_branch], 1)
  (res.1, res.2.2)

/-- Children of the node at level `d`, level position `idx`, in the
level-by-level tree representation: the `degree` consecutive entries of
level `d+1` starting at `idx * degree` (the creation order of
`build_branch_tree`). -/
def childrenOf (levels : List (List String)) (degree d idx : ℕ) :
    List String :=
  ((levels.getD (d + 1) []).drop (idx * degree)).take degree

/-- Expected shape of level `d` of the built tree, used to state the fold
invariant: `[root]` at level 0, else the `degree ^ d` names
`branch_d{d}_n{j+1}` in order. -/
def specLevel (root : String) (degree d : ℕ) : List String :=
  if d = 0 then [root]
  else (List.range (degree ^ d)).map (fun j => branchName d (j + 1))

/-! ### runner.py — branch_insert_op traversal -/

/-- A rooted tree of branch names, the shape `build_branch_tree` hands to
`branch_insert_op` (anytree nodes with `name` and `children`). -/
inductive BTree where
  | node (name : String) (children : List BTree)

/-- The node's name. -/
def BTree.name : BTree → String
  | node n _ => n

/-- The node's children in order. -/
def BTree.children : BTree → List BTree
  | node _ c => c

/-- Truthiness of a Python value that is either `None` or a `bool`, as
tested by `if success:`. -/
def pyTruthy : Option Bool → Bool
  | none => false
  | some b => b

/-- `tasks.DatabaseTask.create_branch(branch_name, timed)`: the method body
calls `self.db_tools.create_db_branch(...)` and discards its boolean
result; the Python function has no `return`, so it returns `None`.
`backend_create` models `db_tools.create_db_branch`'s reported success. -/
def task_create_branch (backend_create : String → Bool)
    (branch_name : String) : Option Bool :=
  let _ := backend_create branch_name
  none

/-- The queue loop of `BenchmarkSuite.branch_insert_op`:
`current_level_nodes = [root]`, then `for node in current_level_nodes`:
visit the node, then for each child set `success = create(child.name)` and
append the child to the list being iterated iff `success` is truthy.
The fuel argument bounds the number of loop iterations (the Python loop
runs one iteration per list element, so any fuel at least the number of
eventually-enqueued nodes computes the loop's result); the result is
`(nodes visited, children enqueued)`. -/
def branch_insert_traverse (create : String → Option Bool) :
    ℕ → List BTree → ℕ → ℕ → ℕ × ℕ
  | 0, _, visited, enqueued => (visited, enqueued)
  | _ + 1, [], visited, enqueued => (visited, enqueued)
  | fuel + 1, t :: rest, visited, enqueued =>
    let newNodes := t.children.filter (fun c => pyTruthy (create c.name))
    branch_insert_traverse create fuel (rest ++ newNodes) (visited + 1)
      (enqueued + newNodes.length)

/-! ### tasks.py — DatabaseTask.insert -/

/-- Observable events of the `DatabaseTask.insert` loop body, in program
order: a call of `generate_row()`, an addition of a primary-key tuple to
`self.all_pks[table]`, an execution of the `INSERT` statement for a row. -/
inductive InsertEvent (R K : Type) where
  | genRow (r : R)
  | addKey (k : K)
  | writeRow (r : R)

/-- Checks that in a trace every `writeRow r` is immediately preceded by
`addKey` of that row's projected primary-key tuple — the ordering
`self.all_pks[table_name].add(pk_tuple)` then `run_sql_query(insert_sql,
row_data)` of the source. -/
def goodTrace {R K : Type} [DecidableEq K] (proj : R → K) :
    List (InsertEvent R K) → Bool
  | [] => true
  | InsertEvent.addKey k :: InsertEvent.writeRow r :: rest =>
    decide (proj r = k) && goodTrace proj rest
  | InsertEvent.writeRow _ :: _ => false
  | _ :: rest => goodTrace proj rest

/-- The rows written in a trace, in order. -/
def writtenRows {R K : Type} : List (InsertEvent R K) → List R
  | [] => []
  | InsertEvent.writeRow r :: rest => r :: writtenRows rest
  | _ :: rest => writtenRows rest

/-- The retry loop of `DatabaseTask.insert`: up to `fuel` iterations
(`for _ in range(num_rows * 5)`), breaking once `inserted_count >=
num_rows`; each remaining iteration generates the next row (`gen` indexed
by the attempt number models the random generator's sample sequence),
projects its primary-key tuple, and inserts it only when the tuple is
absent from the cached set. Returns the final key set, the inserted count,
the number of generation attempts made, and the event trace. -/
def insert_loop {R K : Type} [DecidableEq K] (proj : R → K) (gen : ℕ → R)
    (num_rows : ℕ) :
    ℕ → ℕ → Finset K → ℕ → List (InsertEvent R K) →
    Finset K × ℕ × ℕ × List (InsertEvent R K)
  | 0, attempt, pks, count, evs => (pks, count, attempt, evs)
  | fuel + 1, attempt, pks, count, evs =>
    if num_rows ≤ count then (pks, count, attempt, evs)
    else
      let row := gen attempt
      let pk := proj row
      if pk ∈ pks then
        insert_loop proj gen num_rows fuel (attempt + 1) pks count
          (evs ++ [InsertEvent.genRow row])
      else
        insert_loop proj gen num_rows fuel (attempt + 1) (insert pk pks)
          (count + 1)
          (evs ++ [InsertEvent.genRow row, InsertEvent.addKey pk,
            InsertEvent.writeRow row])

/-- `tasks.DatabaseTask.insert(table, num_rows)`, restricted to its effect
on the cached key set and its emitted row writes: runs the retry loop with
budget `num_rows * 5` over the table's cached keys `pks₀`, and reports the
shortfall warning exactly when `inserted_count < num_rows` at the end.
Result: `(final key set, inserted count, attempts, trace, warning)`. -/
def DatabaseTask.insert {R K : Type} [DecidableEq K] (proj : R → K)
    (gen : ℕ → R) (num_rows : ℕ) (pks₀ : Finset K) :
    Finset K × ℕ × ℕ × List (InsertEvent R K) × Bool :=
  let res := insert_loop proj gen num_rows (num_rows * 5) 0 pks₀ 0 []
  (res.1, res.2.1, res.2.2.1, res.2.2.2, decide (res.2.1 < num_rows))

/-! ### tasks.py — the all_pks cache across operations -/

/-- The `self.all_pks` dictionary: per table name, the set of primary-key
tuples once loaded (`none` = table not yet loaded). -/
def PkCache (K : Type) := String → Option (Finset K)

/-- `DatabaseTask.load_pk_values_for_table(table_name)`: a no-op when the
table is already cached, else stores the set of key tuples returned by the
`SELECT pk_columns FROM table` scan (`query_result`). -/
def load_pk_values_for_table {K : Type} [DecidableEq K] (c : PkCache K)
    (table_name : String) (query_result : List K) : PkCache K :=
  if (c table_name).isSome then c
  else fun t => if t = table_name then some query_result.toFinset else c t

/-- `DatabaseTask.get_table_row_count(table_name)`: loads the table's keys
then returns `len(self.all_pks.get(table_name, []))`; its cache effect is
the load. -/
def get_table_row_count {K : Type} [DecidableEq K] (c : PkCache K)
    (table_name : String) (query_result : List K) : PkCache K × ℕ :=
  let c' := load_pk_values_for_table c table_name query_result
  (c', ((c' table_name).getD ∅).card)

/-- Effect of `DatabaseTask.point_read` on `all_pks`: the method loads the
table's keys, copies them into a local list (`pk_list = list(pk_set)`),
sorts and samples that copy, and issues SELECTs — it never mutates the
cache beyond the initial load. -/
def point_read_pk_effect {K : Type} [DecidableEq K] (c : PkCache K)
    (table_name : String) (query_result : List K) : PkCache K :=
  load_pk_values_for_table c table_name query_result

/-- Effect of `DatabaseTask.update` on `all_pks`: as for `point_read`, the
method only reads the cached set (through a local list copy) after loading
it; no key is ever added or removed. -/
def update_pk_effect {K : Type} [DecidableEq K] (c : PkCache K)
    (table_name : String) (query_result : List K) : PkCache K :=
  load_pk_values_for_table c table_name query_result

/-- Effect of `DatabaseTask.insert` on `all_pks`: load the table's keys if
absent, then run the retry loop, which only ever adds accepted keys to the
table's set. -/
def insert_pk_effect {R K : Type} [DecidableEq K] (proj : R → K)
    (gen : ℕ → R) (num_rows : ℕ) (c : PkCache K) (table_name : String)
    (query_result : List K) : PkCache K :=
  let c' := load_pk_values_for_table c table_name query_result
  let res := insert_loop proj gen num_rows (num_rows * 5) 0
    ((c' table_name).getD ∅) 0 []
  fun t => if t = table_name then some res.1 else c' t

/-! ## Helper lemmas -/

lemma truncQ_of_nonneg {q : ℚ} (h : 0 ≤ q) : truncQ q = ⌊q⌋ := if_pos h

lemma truncQ_of_neg {q : ℚ} (h : q < 0) : truncQ q = ⌈q⌉ := if_neg (not_le.mpr h)

/-! ## Claims about get_sampled_indices -/

/-- C7: `get_sampled_indices` raises the invalid-argument `ValueError`
exactly when the sampling rate lies outside `(0, 1]`; for any rate in
`(0, 1]` (the distribution callback being total) the call returns a result
instead of raising. -/
theorem get_sampled_indices_error_iff (pop : ℕ) (rate : ℚ) (cap : ℤ)
    (dist : ℕ → List ℚ) :
    (∃ msg, get_sampled_indices pop rate cap dist = Except.error msg) ↔
      ¬ (0 < rate ∧ rate ≤ 1) := by
  unfold get_sampled_indices
  by_cases h : 0 < rate ∧ rate ≤ 1 <;> simp [h]

/-- C5: for a positive population, a rate in `(0, 1]`, a cap of at least 1
and a distribution returning exactly the requested number of floats, the
returned index list has length `max(1, min(cap, floor(pop * rate)))`, and
in particular is never empty. -/
theorem get_sampled_indices_length (pop : ℕ) (rate : ℚ) (cap : ℤ)
    (dist : ℕ → List ℚ) (hpop : 0 < pop) (hr0 : 0 < rate) (hr1 : rate ≤ 1)
    (hcap : 1 ≤ cap) (hdist : ∀ n, (dist n).length = n) :
    ∃ l, get_sampled_indices pop rate cap dist = Except.ok l ∧
      (l.length : ℤ) = max 1 (min cap ⌊(pop : ℚ) * rate⌋) ∧ 1 ≤ l.length := by
  have hmul : (0 : ℚ) ≤ (pop : ℚ) * rate :=
    mul_nonneg (Nat.cast_nonneg pop) hr0.le
  have hss : sampleSize pop rate cap = max 1 (min cap ⌊(pop : ℚ) * rate⌋) := by
    unfold sampleSize
    rw [truncQ_of_nonneg hmul]
  have hge : (1 : ℤ) ≤ sampleSize pop rate cap := le_max_left _ _
  refine ⟨(dist (sampleSize pop rate cap).toNat).map
      (fun v => truncQ (v * ((pop : ℚ) - 1))), ?_, ?_, ?_⟩
  · unfold get_sampled_indices
    rw [if_neg (not_not_intro ⟨hr0, hr1⟩)]
  · rw [List.length_map, hdist, ← hss, Int.toNat_of_nonneg (by omega)]
  · rw [List.length_map, hdist]
    omega

/-- Witness for C5 at `pop = 10`, `rate = 1`, `cap = 3`,
`dist n = replicate n 1`. -/
theorem get_sampled_indices_length_witness :
    ((0 < 10) ∧ ((0 : ℚ) < 1) ∧ ((1 : ℚ) ≤ 1) ∧ ((1 : ℤ) ≤ 3) ∧
      (∀ n, (List.replicate n (1 : ℚ)).length = n)) ∧
    (∃ l, get_sampled_indices 10 1 3 (fun n => List.replicate n (1 : ℚ)) =
        Except.ok l ∧
      (l.length : ℤ) = max 1 (min 3 ⌊((10 : ℕ) : ℚ) * 1⌋) ∧ 1 ≤ l.length) :=
  ⟨⟨by decide, one_pos, le_rfl, by decide, fun n => by simp⟩,
    get_sampled_indices_length 10 1 3 _ (by decide) one_pos le_rfl (by decide)
      (fun n => by simp)⟩

/-- C6: for a positive population and a distribution whose values lie in
`[0, 1]` (and a rate in `(0, 1]` so that the call succeeds), every returned
index is `floor(value * (pop - 1))` for the corresponding distribution
value, and lies between `0` and `pop - 1`. -/
theorem get_sampled_indices_index_range (pop : ℕ) (rate : ℚ) (cap : ℤ)
    (dist : ℕ → List ℚ) (hpop : 0 < pop) (hr0 : 0 < rate) (hr1 : rate ≤ 1)
    (hvals : ∀ n, ∀ v ∈ dist n, 0 ≤ v ∧ v ≤ 1) :
    ∃ l, get_sampled_indices pop rate cap dist = Except.ok l ∧
      l = (dist (sampleSize pop rate cap).toNat).map
        (fun v => ⌊v * ((pop : ℚ) - 1)⌋) ∧
      ∀ i ∈ l, 0 ≤ i ∧ i ≤ (pop : ℤ) - 1 := by
  have hpop1 : (0 : ℚ) ≤ (pop : ℚ) - 1 := by
    have h1 : (1 : ℚ) ≤ (pop : ℚ) := by exact_mod_cast hpop
    linarith
  have hcast : ((pop : ℚ) - 1) = (((pop : ℤ) - 1 : ℤ) : ℚ) := by push_cast; ring
  refine ⟨(dist (sampleSize pop rate cap).toNat).map
      (fun v => truncQ (v * ((pop : ℚ) - 1))), ?_, ?_, ?_⟩
  · unfold get_sampled_indices
    rw [if_neg (not_not_intro ⟨hr0, hr1⟩)]
  · refine List.map_congr_left (fun v hv => ?_)
    exact truncQ_of_nonneg (mul_nonneg (hvals _ v hv).1 hpop1)
  · intro i hi
    obtain ⟨v, hv, rfl⟩ := List.mem_map.mp hi
    obtain ⟨hv0, hv1⟩ := hvals _ v hv
    have hnn : (0 : ℚ) ≤ v * ((pop : ℚ) - 1) := mul_nonneg hv0 hpop1
    rw [truncQ_of_nonneg hnn]
    constructor
    · exact Int.floor_nonneg.mpr hnn
    · have hle : v * ((pop : ℚ) - 1) ≤ (pop : ℚ) - 1 :=
        mul_le_of_le_one_left hpop1 hv1
      calc ⌊v * ((pop : ℚ) - 1)⌋ ≤ ⌊(pop : ℚ) - 1⌋ := Int.floor_le_floor hle
        _ = (pop : ℤ) - 1 := by rw [hcast, Int.floor_intCast]

/-- Witness for C6 at `pop = 3`, `rate = 1`, `cap = 2`,
`dist n = replicate n 1`. -/
theorem get_sampled_indices_index_range_witness :
    ((0 < 3) ∧ ((0 : ℚ) < 1) ∧ ((1 : ℚ) ≤ 1) ∧
      (∀ n, ∀ v ∈ List.replicate n (1 : ℚ), 0 ≤ v ∧ v ≤ 1)) ∧
    (∃ l, get_sampled_indices 3 1 2 (fun n => List.replicate n (1 : ℚ)) =
        Except.ok l ∧
      l = ((fun n => List.replicate n (1 : ℚ)) (sampleSize 3 1 2).toNat).map
        (fun v => ⌊v * (((3 : ℕ) : ℚ) - 1)⌋) ∧
      ∀ i ∈ l, 0 ≤ i ∧ i ≤ ((3 : ℕ) : ℤ) - 1) :=
  ⟨⟨by decide, one_pos, le_rfl,
      fun n v hv => by rw [List.eq_of_mem_replicate hv]; exact ⟨zero_le_one, le_rfl⟩⟩,
    get_sampled_indices_index_range 3 1 2 _ (by decide) one_pos le_rfl
      (fun n v hv => by rw [List.eq_of_mem_replicate hv]; exact ⟨zero_le_one, le_rfl⟩)⟩

/-- C10: for an empty population (and otherwise valid arguments with
distribution values in `[0, 1]`), `get_sampled_indices` does not raise and
returns exactly one index, which is `0` or `-1` — never a position of the
empty population. -/
theorem get_sampled_indices_zero_population (rate : ℚ) (cap : ℤ)
    (dist : ℕ → List ℚ) (hr0 : 0 < rate) (hr1 : rate ≤ 1) (hcap : 1 ≤ cap)
    (hlen : ∀ n, (dist n).length = n)
    (hvals : ∀ n, ∀ v ∈ dist n, 0 ≤ v ∧ v ≤ 1) :
    ∃ i, get_sampled_indices 0 rate cap dist = Except.ok [i] ∧
      (i = 0 ∨ i = -1) := by
  have hss : sampleSize 0 rate cap = 1 := by
    unfold sampleSize
    rw [Nat.cast_zero, zero_mul, truncQ_of_nonneg le_rfl, Int.floor_zero,
      min_eq_right (by omega : (0 : ℤ) ≤ cap), max_eq_left (by omega : (0 : ℤ) ≤ 1)]
  obtain ⟨v, hv⟩ : ∃ v, dist 1 = [v] := List.length_eq_one.mp (hlen 1)
  have hvmem : v ∈ dist 1 := by rw [hv]; exact List.mem_singleton_self v
  obtain ⟨hv0, hv1⟩ := hvals 1 v hvmem
  have hval : v * (((0 : ℕ) : ℚ) - 1) = -v := by push_cast; ring
  refine ⟨truncQ (v * (((0 : ℕ) : ℚ) - 1)), ?_, ?_⟩
  · unfold get_sampled_indices
    rw [if_neg (not_not_intro ⟨hr0, hr1⟩), hss]
    show Except.ok ((dist (1 : ℤ).toNat).map _) = _
    rw [show ((1 : ℤ).toNat) = 1 from rfl, hv]
    rfl
  · rw [hval]
    rcases hv0.lt_or_eq with hpos | hzero
    · have hneg : -v < 0 := by linarith
      rw [truncQ_of_neg hneg]
      have hub : ⌈-v⌉ ≤ 0 := Int.ceil_le.mpr (by push_cast; linarith)
      have hlb : (-2 : ℤ) < ⌈-v⌉ := Int.lt_ceil.mpr (by push_cast; linarith)
      omega
    · rw [← hzero, neg_zero, truncQ_of_nonneg le_rfl, Int.floor_zero]
      exact Or.inl rfl

/-- Witness for C10 at `rate = 1`, `cap = 1`, `dist n = replicate n 1`. -/
theorem get_sampled_indices_zero_population_witness :
    (((0 : ℚ) < 1) ∧ ((1 : ℚ) ≤ 1) ∧ ((1 : ℤ) ≤ 1) ∧
      (∀ n, (List.replicate n (1 : ℚ)).length = n) ∧
      (∀ n, ∀ v ∈ List.replicate n (1 : ℚ), 0 ≤ v ∧ v ≤ 1)) ∧
    (∃ i, get_sampled_indices 0 1 1 (fun n => List.replicate n (1 : ℚ)) =
        Except.ok [i] ∧ (i = 0 ∨ i = -1)) :=
  ⟨⟨one_pos, le_rfl, le_rfl, fun n => by simp,
      fun n v hv => by rw [List.eq_of_mem_replicate hv]; exact ⟨zero_le_one, le_rfl⟩⟩,
    get_sampled_indices_zero_population 1 1 _ one_pos le_rfl le_rfl
      (fun n => by simp)
      (fun n v hv => by rw [List.eq_of_mem_replicate hv]; exact ⟨zero_le_one, le_rfl⟩)⟩

/-! ## Claims about the Timer -/

lemma applyCursorCollects_each (ops : List (ℚ × String)) :
    ∀ t : Timer, (t.applyCursorCollects ops).each_cursor_elapsed
      = t.each_cursor_elapsed ++ ops.map Prod.fst := by
  induction ops with
  | nil => intro t; simp [Timer.applyCursorCollects]
  | cons op rest ih =>
    intro t
    show ((t.collect_cursor_elapsed op.1 op.2).applyCursorCollects rest).each_cursor_elapsed = _
    rw [ih]
    simp [Timer.collect_cursor_elapsed]

lemma applyCursorCollects_tag (ops : List (ℚ × String)) (tag : String)
    (hmem : ∀ op ∈ ops, op.2 ≠ tag) :
    ∀ t : Timer, (t.applyCursorCollects ops).cursor_elapsed_by_tag tag
      = t.cursor_elapsed_by_tag tag := by
  induction ops with
  | nil => intro t; rfl
  | cons op rest ih =>
    intro t
    show ((t.collect_cursor_elapsed op.1 op.2).applyCursorCollects rest).cursor_elapsed_by_tag tag = _
    rw [ih (fun o ho => hmem o (List.mem_cons_of_mem op ho))]
    have hop : op.2 ≠ tag := hmem op (List.mem_cons_self op rest)
    unfold Timer.collect_cursor_elapsed
    dsimp only
    split
    · rfl
    · dsimp only
      rw [if_neg (fun h => hop h.symm)]

/-- C8: a tag under which no duration was ever collected reports the empty
sequence (no error); the derived statistics `get_average`, `get_stddev`
and `get_sum` all return `0.0` on an empty sequence; and reporting with no
tag returns the unlabeled bucket holding every collected duration. Timer
states are those reachable from `reset` by a sequence of collects. -/
theorem timer_missing_tag_empty_stats (ops : List (ℚ × String)) (tag : String)
    (htag : tag ≠ "") (hmem : ∀ op ∈ ops, op.2 ≠ tag) :
    (Timer.reset.applyCursorCollects ops).report_cursor_elapsed tag = [] ∧
    get_average [] = 0 ∧ (∀ f, get_stddev f [] = 0) ∧ get_sum [] = 0 ∧
    (Timer.reset.applyCursorCollects ops).report_cursor_elapsed ""
      = ops.map Prod.fst := by
  refine ⟨?_, rfl, fun f => rfl, rfl, ?_⟩
  · rw [Timer.report_cursor_elapsed, if_neg htag,
      applyCursorCollects_tag ops tag hmem]
    rfl
  · rw [Timer.report_cursor_elapsed, if_pos rfl, applyCursorCollects_each]
    rfl

/-- Witness for C8: one duration collected under tag `"execute"`, then the
untouched tag `"commit"` is reported. -/
theorem timer_missing_tag_empty_stats_witness :
    (("commit" : String) ≠ "" ∧
      (∀ op ∈ [((1 : ℚ), "execute")], op.2 ≠ "commit")) ∧
    ((Timer.reset.applyCursorCollects [((1 : ℚ), "execute")]).report_cursor_elapsed
        "commit" = [] ∧
      get_average [] = 0 ∧ (∀ f, get_stddev f [] = 0) ∧ get_sum [] = 0 ∧
      (Timer.reset.applyCursorCollects [((1 : ℚ), "execute")]).report_cursor_elapsed ""
        = [((1 : ℚ), "execute")].map Prod.fst) :=
  ⟨⟨by decide, by decide⟩,
    timer_missing_tag_empty_stats [((1 : ℚ), "execute")] "commit" (by decide)
      (by decide)⟩

/-! ## Claims about build_branch_tree -/

lemma flatMap_range_block (degree L : ℕ) (h : ℕ → String) :
    (List.range L).flatMap
        (fun idx => (List.range degree).map (fun i => h (idx * degree + i)))
      = (List.range (L * degree)).map h := by
  induction L with
  | zero => simp
  | succ n ih =>
    rw [List.range_succ, List.flatMap_append, ih, Nat.succ_mul, List.range_add,
      List.map_append, List.map_map]
    simp [Function.comp]

lemma nextLevelNames_eq (d degree : ℕ) (cur : List String) :
    nextLevelNames d degree cur
      = (List.range (cur.length * degree)).map
          (fun j => branchName (d + 1) (j + 1)) := by
  unfold nextLevelNames
  have h1 : cur.enum.flatMap
      (fun p => (List.range degree).map
        (fun i => branchName (d + 1) (p.1 * degree + i + 1)))
      = (cur.enum.map Prod.fst).flatMap
        (fun idx => (List.range degree).map
          (fun i => branchName (d + 1) (idx * degree + i + 1))) := by
    rw [List.flatMap_map]
  rw [h1, List.enum_map_fst]
  exact flatMap_range_block degree cur.length (fun j => branchName (d + 1) (j + 1))

lemma specLevel_length (root : String) (degree d : ℕ) :
    (specLevel root degree d).length = degree ^ d := by
  unfold specLevel
  split
  · simp [*]
  · simp

lemma build_fold_spec (root : String) (degree : ℕ) :
    ∀ k : ℕ, (List.range k).foldl (buildStep degree) ([[root]], [root], 1)
      = ((List.range (k + 1)).map (specLevel root degree),
          specLevel root degree k,
          ∑ i in Finset.range (k + 1), degree ^ i) := by
  intro k
  induction k with
  | zero =>
    refine Prod.ext ?_ (Prod.ext ?_ ?_)
    · rfl
    · rfl
    · show (1 : ℕ) = ∑ i in Finset.range 1, degree ^ i
      rw [Finset.sum_range_one, pow_zero]
  | succ n ih =>
    rw [List.range_succ, List.foldl_append, ih]
    show buildStep degree _ n = _
    unfold buildStep
    dsimp only
    rw [nextLevelNames_eq, specLevel_length, ← pow_succ]
    have hnext : (List.range (degree ^ (n + 1))).map
        (fun j => branchName (n + 1) (j + 1)) = specLevel root degree (n + 1) := by
      unfold specLevel
      rw [if_neg (Nat.succ_ne_zero n)]
    rw [hnext]
    refine Prod.ext ?_ (Prod.ext rfl ?_)
    · show (List.range (n + 1)).map (specLevel root degree) ++ [specLevel root degree (n + 1)]
        = (List.range (n + 1 + 1)).map (specLevel root degree)
      conv_rhs => rw [List.range_succ, List.map_append]
      rfl
    · show (∑ i in Finset.range (n + 1), degree ^ i) + (specLevel root degree (n + 1)).length
        = ∑ i in Finset.range (n + 1 + 1), degree ^ i
      rw [specLevel_length, Finset.sum_range_succ (fun i => degree ^ i) (n + 1)]

lemma getD_map_range {α : Type} (f : ℕ → α) (n i : ℕ) (h : i < n) (dflt : α) :
    ((List.range n).map f).getD i dflt = f i := by
  rw [List.getD_eq_getElem?_getD, List.getElem?_map, List.getElem?_range h]
  rfl

/-- C2: `build_branch_tree(root, depth, degree)` returns total node count
`1 + degree + degree^2 + ... + degree^depth` (counted during
construction), and the node at depth `d` in `1..depth`, 0-based position
`idx` across the whole level, is named `branch_d{d}_n{idx+1}`; in
particular for `depth = 2`, `degree = 2` the count is `7` and the root's
children are `branch_d1_n1` and `branch_d1_n2`. -/
theorem build_branch_tree_spec (root : String) (depth degree : ℕ)
    (hdeg : 1 ≤ degree) :
    (build_branch_tree root depth degree).2
        = ∑ i in Finset.range (depth + 1), degree ^ i ∧
    (∀ d idx, 1 ≤ d → d ≤ depth → idx < degree ^ d →
      ((build_branch_tree root depth degree).1.getD d []).getD idx ""
        = branchName d (idx + 1)) ∧
    (build_branch_tree "root" 2 2).2 = 7 ∧
    childrenOf (build_branch_tree "root" 2 2).1 2 0 0
      = ["branch_d1_n1", "branch_d1_n2"] := by
  refine ⟨?_, ?_, ?_, ?_⟩
  · show ((List.range depth).foldl (buildStep degree) ([[root]], [root], 1)).2.2 = _
    rw [build_fold_spec]
  · intro d idx hd1 hdd hidx
    show (((List.range depth).foldl (buildStep degree)
        ([[root]], [root], 1)).1.getD d []).getD idx "" = _
    rw [build_fold_spec]
    show (((List.range (depth + 1)).map (specLevel root degree)).getD d []).getD idx "" = _
    rw [getD_map_range _ _ _ (by omega)]
    unfold specLevel
    rw [if_neg (by omega)]
    rw [getD_map_range _ _ _ hidx]
  · decide
  · decide

/-- Witness for C2 at `root = "r"`, `depth = 1`, `degree = 2`. -/
theorem build_branch_tree_spec_witness :
    (1 ≤ 2) ∧
    ((build_branch_tree "r" 1 2).2 = ∑ i in Finset.range 2, 2 ^ i ∧
      (∀ d idx, 1 ≤ d → d ≤ 1 → idx < 2 ^ d →
        ((build_branch_tree "r" 1 2).1.getD d []).getD idx ""
          = branchName d (idx + 1)) ∧
      (build_branch_tree "root" 2 2).2 = 7 ∧
      childrenOf (build_branch_tree "root" 2 2).1 2 0 0
        = ["branch_d1_n1", "branch_d1_n2"]) :=
  ⟨by decide, build_branch_tree_spec "r" 1 2 (by decide)⟩

/-! ## Claims about sort_population -/

/-- C4 counterexample: on `[[1, 2], [1, 1]]` with key index 0 the stable
sort leaves the tied tuples in input order, so the result is not sorted by
the spec's claimed tie-breaking order (key first, then the remaining
fields), which would demand `[[1, 1], [1, 2]]`. -/
theorem sort_population_tie_counterexample :
    sort_population [[1, 2], [1, 1]] 0 = [[1, 2], [1, 1]] ∧
    ¬ List.Sorted (specTieOrder 0) (sort_population [[1, 2], [1, 1]] 0) := by
  constructor
  · decide
  · decide

/-- C4 (amended): `sort_population` sorts the population into ascending
order of the value at the key index; the result is a permutation of the
input, and ties on the key keep their original relative order (stable
sort) — they are not reordered by their remaining fields. -/
theorem sort_population_sorted_stable (population : List (List ℤ)) (idx : ℕ) :
    List.Sorted (fun a b => tupleKey a idx ≤ tupleKey b idx)
      (sort_population population idx) ∧
    List.Perm (sort_population population idx) population ∧
    ∀ k : ℤ,
      (sort_population population idx).filter
          (fun x => decide (tupleKey x idx = k))
        = population.filter (fun x => decide (tupleKey x idx = k)) := by
  haveI htot : IsTotal (List ℤ) (fun a b => tupleKey a idx ≤ tupleKey b idx) :=
    ⟨fun a b => le_total _ _⟩
  haveI htrans : IsTrans (List ℤ) (fun a b => tupleKey a idx ≤ tupleKey b idx) :=
    ⟨fun _ _ _ hab hbc => le_trans hab hbc⟩
  refine ⟨List.sorted_insertionSort _ _, List.perm_insertionSort _ _, ?_⟩
  intro k
  have hpair : (population.filter
      (fun x => decide (tupleKey x idx = k))).Pairwise
      (fun a b => tupleKey a idx ≤ tupleKey b idx) := by
    refine List.pairwise_of_forall_mem_list (fun a ha b hb => ?_)
    have ha2 : tupleKey a idx = k := of_decide_eq_true (List.mem_filter.mp ha).2
    have hb2 : tupleKey b idx = k := of_decide_eq_true (List.mem_filter.mp hb).2
    rw [ha2, hb2]
  have hsub : List.Sublist
      (population.filter (fun x => decide (tupleKey x idx = k)))
      (sort_population population idx) :=
    List.sublist_insertionSort hpair (List.filter_sublist _)
  have hsub2 : List.Sublist
      ((population.filter (fun x => decide (tupleKey x idx = k))).filter
        (fun x => decide (tupleKey x idx = k)))
      ((sort_population population idx).filter
        (fun x => decide (tupleKey x idx = k))) :=
    hsub.filter _
  have hself : (population.filter (fun x => decide (tupleKey x idx = k))).filter
      (fun x => decide (tupleKey x idx = k))
      = population.filter (fun x => decide (tupleKey x idx = k)) :=
    List.filter_eq_self.mpr (fun a ha => (List.mem_filter.mp ha).2)
  rw [hself] at hsub2
  have hlen : ((sort_population population idx).filter
        (fun x => decide (tupleKey x idx = k))).length
      = (population.filter (fun x => decide (tupleKey x idx = k))).length :=
    ((List.perm_insertionSort _ population).filter _).length_eq
  exact (hsub2.eq_of_length hlen.symm).symm

/-! ## Claim about the branch+insert traversal -/

/-- C1 (code bug): `DatabaseTask.create_branch` drops the boolean returned
by the backend and implicitly returns `None`, so in `branch_insert_op` the
test `if success:` is never true: for every backend outcome — including
the claimed scenario of depth 1, degree 2 with one of the two creation
calls failing — no child is ever enqueued, the traversal visits only the
root (1 node, not 2), and 0 children (not 1) are added to the queue. -/
theorem create_branch_drops_success :
    (∀ (backend : String → Bool) (name : String),
      pyTruthy (task_create_branch backend name) = false) ∧
    (∀ backend : String → Bool,
      branch_insert_traverse (task_create_branch backend) 8
        [BTree.node "main"
          [BTree.node "branch_d1_n1" [], BTree.node "branch_d1_n2" []]] 0 0
        = (1, 0)) :=
  ⟨fun _ _ => rfl, fun _ => rfl⟩

/-! ## Claims about DatabaseTask.insert and the all_pks cache -/

lemma writtenRows_append {R K : Type} (a b : List (InsertEvent R K)) :
    writtenRows (a ++ b) = writtenRows a ++ writtenRows b := by
  induction a with
  | nil => rfl
  | cons x rest ih => cases x <;> simp [writtenRows, ih]

lemma goodTrace_append_gen {R K : Type} [DecidableEq K] (proj : R → K) (r : R) :
    ∀ evs : List (InsertEvent R K),
      goodTrace proj (evs ++ [InsertEvent.genRow r]) = goodTrace proj evs
  | [] => by simp [goodTrace]
  | InsertEvent.addKey k :: InsertEvent.writeRow r2 :: rest => by
    simp only [List.cons_append, goodTrace, List.append_eq]
    rw [goodTrace_append_gen proj r rest]
  | InsertEvent.writeRow r2 :: rest => by simp [goodTrace]
  | InsertEvent.genRow r2 :: rest => by
    simpa [goodTrace] using goodTrace_append_gen proj r rest
  | [InsertEvent.addKey k] => by simp [goodTrace]
  | InsertEvent.addKey k :: InsertEvent.genRow r2 :: rest => by
    simpa [goodTrace] using
      goodTrace_append_gen proj r (InsertEvent.genRow r2 :: rest)
  | InsertEvent.addKey k :: InsertEvent.addKey k2 :: rest => by
    simpa [goodTrace] using
      goodTrace_append_gen proj r (InsertEvent.addKey k2 :: rest)

lemma goodTrace_append_accept {R K : Type} [DecidableEq K] (proj : R → K)
    (r : R) :
    ∀ evs : List (InsertEvent R K),
      goodTrace proj (evs ++ [InsertEvent.genRow r,
        InsertEvent.addKey (proj r), InsertEvent.writeRow r])
        = goodTrace proj evs
  | [] => by simp [goodTrace]
  | InsertEvent.addKey k :: InsertEvent.writeRow r2 :: rest => by
    simp only [List.cons_append, goodTrace, List.append_eq]
    rw [goodTrace_append_accept proj r rest]
  | InsertEvent.writeRow r2 :: rest => by simp [goodTrace]
  | InsertEvent.genRow r2 :: rest => by
    simpa [goodTrace] using goodTrace_append_accept proj r rest
  | [InsertEvent.addKey k] => by simp [goodTrace]
  | InsertEvent.addKey k :: InsertEvent.genRow r2 :: rest => by
    simpa [goodTrace] using
      goodTrace_append_accept proj r (InsertEvent.genRow r2 :: rest)
  | InsertEvent.addKey k :: InsertEvent.addKey k2 :: rest => by
    simpa [goodTrace] using
      goodTrace_append_accept proj r (InsertEvent.addKey k2 :: rest)

lemma insert_loop_invariant {R K : Type} [DecidableEq K] (proj : R → K)
    (gen : ℕ → R) (n : ℕ) :
    ∀ (fuel attempt count : ℕ) (pks₀ pks : Finset K)
      (evs : List (InsertEvent R K)),
      pks = pks₀ ∪ ((writtenRows evs).map proj).toFinset →
      ((writtenRows evs).map proj).Nodup →
      (∀ r ∈ writtenRows evs, proj r ∉ pks₀) →
      (∀ r ∈ writtenRows evs, ∃ t, r = gen t) →
      count = (writtenRows evs).length →
      goodTrace proj evs = true →
      count ≤ n →
      ∀ pks1 count1 att1 evs1,
        insert_loop proj gen n fuel attempt pks count evs
          = (pks1, count1, att1, evs1) →
        pks1 = pks₀ ∪ ((writtenRows evs1).map proj).toFinset ∧
        ((writtenRows evs1).map proj).Nodup ∧
        (∀ r ∈ writtenRows evs1, proj r ∉ pks₀) ∧
        (∀ r ∈ writtenRows evs1, ∃ t, r = gen t) ∧
        count1 = (writtenRows evs1).length ∧
        goodTrace proj evs1 = true ∧
        count1 ≤ n ∧
        att1 ≤ attempt + fuel := by
  intro fuel
  induction fuel with
  | zero =>
    intro attempt count pks₀ pks evs h1 h2 h3 h4 h5 h6 h7 pks1 count1 att1 evs1 heq
    rw [insert_loop] at heq
    injection heq with ha hb
    injection hb with hb hc
    injection hc with hc hd
    subst ha; subst hb; subst hc; subst hd
    exact ⟨h1, h2, h3, h4, h5, h6, h7, Nat.le_add_right _ _⟩
  | succ fuel ih =>
    intro attempt count pks₀ pks evs h1 h2 h3 h4 h5 h6 h7 pks1 count1 att1 evs1 heq
    rw [insert_loop] at heq
    by_cases hbreak : n ≤ count
    · rw [if_pos hbreak] at heq
      injection heq with ha hb
      injection hb with hb hc
      injection hc with hc hd
      subst ha; subst hb; subst hc; subst hd
      exact ⟨h1, h2, h3, h4, h5, h6, h7, Nat.le_add_right _ _⟩
    · rw [if_neg hbreak] at heq
      simp only at heq
      by_cases hmem : proj (gen attempt) ∈ pks
      · rw [if_pos hmem] at heq
        have hres := ih (attempt + 1) count pks₀ pks
          (evs ++ [InsertEvent.genRow (gen attempt)])
          (by rw [writtenRows_append]; simpa [writtenRows] using h1)
          (by rw [writtenRows_append]; simpa [writtenRows] using h2)
          (by rw [writtenRows_append]; simpa [writtenRows] using h3)
          (by rw [writtenRows_append]; simpa [writtenRows] using h4)
          (by rw [writtenRows_append]; simpa [writtenRows] using h5)
          (by rw [goodTrace_append_gen]; exact h6)
          h7 pks1 count1 att1 evs1 heq
        exact ⟨hres.1, hres.2.1, hres.2.2.1, hres.2.2.2.1, hres.2.2.2.2.1,
          hres.2.2.2.2.2.1, hres.2.2.2.2.2.2.1, by omega⟩
      · rw [if_neg hmem] at heq
        have hnotin : proj (gen attempt) ∉ pks₀ := fun hin =>
          hmem (h1 ▸ Finset.mem_union_left _ hin)
        have hnotinw : proj (gen attempt) ∉ (writtenRows evs).map proj := by
          intro hin
          exact hmem (h1 ▸ Finset.mem_union_right _ (List.mem_toFinset.mpr hin))
        have hw : writtenRows ([InsertEvent.genRow (gen attempt),
            InsertEvent.addKey (proj (gen attempt)),
            InsertEvent.writeRow (gen attempt)] : List (InsertEvent R K))
            = [gen attempt] := rfl
        have hres := ih (attempt + 1) (count + 1) pks₀
          (insert (proj (gen attempt)) pks)
          (evs ++ [InsertEvent.genRow (gen attempt),
            InsertEvent.addKey (proj (gen attempt)),
            InsertEvent.writeRow (gen attempt)])
          (by
            rw [writtenRows_append, hw, List.map_append, h1]
            ext x
            simp only [List.map_cons, List.map_nil, Finset.mem_insert,
              Finset.mem_union, List.mem_toFinset, List.mem_append,
              List.mem_singleton]
            tauto)
          (by
            rw [writtenRows_append, hw, List.map_append]
            simp only [List.map_cons, List.map_nil]
            rw [List.nodup_append]
            refine ⟨h2, List.nodup_singleton _, ?_⟩
            intro x hx hx2
            simp only [List.mem_singleton] at hx2
            exact hnotinw (hx2 ▸ hx))
          (by
            rw [writtenRows_append, hw]
            intro r hr
            rcases List.mem_append.mp hr with hr | hr
            · exact h3 r hr
            · have hrg : r = gen attempt := List.mem_singleton.mp hr
              exact hrg ▸ hnotin)
          (by
            rw [writtenRows_append, hw]
            intro r hr
            rcases List.mem_append.mp hr with hr | hr
            · exact h4 r hr
            · exact ⟨attempt, List.mem_singleton.mp hr⟩)
          (by rw [writtenRows_append, hw, List.length_append, h5]; rfl)
          (by rw [goodTrace_append_accept]; exact h6)
          (by omega)
          pks1 count1 att1 evs1 heq
        exact ⟨hres.1, hres.2.1, hres.2.2.1, hres.2.2.2.1, hres.2.2.2.2.1,
          hres.2.2.2.2.2.1, hres.2.2.2.2.2.2.1, by omega⟩

/-- C3: every call of `DatabaseTask.insert(table, n)` makes at most `5n`
row-generation attempts; a generated row is written only if its projected
primary-key tuple was absent (written keys are pairwise distinct and
disjoint from the cached set), and on acceptance the key is added to the
cache immediately before the row is written; at most `n` rows are
inserted; if fewer than `n` unique rows were produced the shortfall
warning is emitted (no error); in particular if the generator can only
produce keys from the cache plus a fresh pool of 2, at most 2 rows are
inserted. -/
theorem DatabaseTask_insert_spec {R K : Type} [DecidableEq K] (proj : R → K)
    (gen : ℕ → R) (n : ℕ) (pks₀ : Finset K) :
    ∀ pks1 count1 att1 evs1 warn1,
      DatabaseTask.insert proj gen n pks₀ = (pks1, count1, att1, evs1, warn1) →
      att1 ≤ 5 * n ∧
      count1 ≤ n ∧
      (warn1 = true ↔ count1 < n) ∧
      goodTrace proj evs1 = true ∧
      ((writtenRows evs1).map proj).Nodup ∧
      (∀ r ∈ writtenRows evs1, proj r ∉ pks₀) ∧
      count1 = (writtenRows evs1).length ∧
      pks1 = pks₀ ∪ ((writtenRows evs1).map proj).toFinset ∧
      (∀ fresh : Finset K, (∀ t, proj (gen t) ∈ pks₀ ∪ fresh) →
        count1 ≤ fresh.card) := by
  intro pks1 count1 att1 evs1 warn1 heq
  unfold DatabaseTask.insert at heq
  have hinv := insert_loop_invariant proj gen n (n * 5) 0 0 pks₀ pks₀ []
    (by simp [writtenRows]) (by simp [writtenRows]) (by simp [writtenRows])
    (by simp [writtenRows]) rfl rfl (Nat.zero_le n)
    (insert_loop proj gen n (n * 5) 0 pks₀ 0 []).1
    (insert_loop proj gen n (n * 5) 0 pks₀ 0 []).2.1
    (insert_loop proj gen n (n * 5) 0 pks₀ 0 []).2.2.1
    (insert_loop proj gen n (n * 5) 0 pks₀ 0 []).2.2.2
    rfl
  have hp : pks1 = (insert_loop proj gen n (n * 5) 0 pks₀ 0 []).1 ∧
      count1 = (insert_loop proj gen n (n * 5) 0 pks₀ 0 []).2.1 ∧
      att1 = (insert_loop proj gen n (n * 5) 0 pks₀ 0 []).2.2.1 ∧
      evs1 = (insert_loop proj gen n (n * 5) 0 pks₀ 0 []).2.2.2 ∧
      warn1 = decide ((insert_loop proj gen n (n * 5) 0 pks₀ 0 []).2.1 < n) := by
    injection heq with ha hb
    injection hb with hb hc
    injection hc with hc hd
    injection hd with hd he
    exact ⟨ha.symm, hb.symm, hc.symm, hd.symm, he.symm⟩
  obtain ⟨hpa, hpb, hpc, hpd, hpe⟩ := hp
  subst hpa; subst hpb; subst hpc; subst hpd; subst hpe
  refine ⟨by have := hinv.2.2.2.2.2.2.2; omega,
    hinv.2.2.2.2.2.2.1,
    by rw [hinv.2.2.2.2.1]; simp,
    hinv.2.2.2.2.2.1, hinv.2.1, hinv.2.2.1, hinv.2.2.2.2.1, hinv.1, ?_⟩
  intro fresh hdom
  have hsub : ((writtenRows
      (insert_loop proj gen n (n * 5) 0 pks₀ 0 []).2.2.2).map proj).toFinset
      ⊆ fresh := by
    intro x hx
    obtain ⟨r, hr, rfl⟩ := List.mem_map.mp (List.mem_toFinset.mp hx)
    obtain ⟨t, rfl⟩ := hinv.2.2.2.1 r hr
    rcases Finset.mem_union.mp (hdom t) with hin | hin
    · exact absurd hin (hinv.2.2.1 _ hr)
    · exact hin
  calc (insert_loop proj gen n (n * 5) 0 pks₀ 0 []).2.1
      = ((writtenRows (insert_loop proj gen n (n * 5) 0 pks₀ 0 []).2.2.2).map
          proj).length := by rw [hinv.2.2.2.2.1, List.length_map]
    _ = ((writtenRows (insert_loop proj gen n (n * 5) 0 pks₀ 0 []).2.2.2).map
          proj).toFinset.card :=
        (List.toFinset_card_of_nodup hinv.2.1).symm
    _ ≤ fresh.card := Finset.card_le_card hsub

/-- Witness for C3: generator that can only ever produce the fresh key
`[2]` next to the cached key `[1]`; requesting 5 inserts yields at most
`card {[2], [3]} = 2` rows. -/
theorem DatabaseTask_insert_spec_witness :
    (∀ t : ℕ, (fun x : List ℤ => x) ((fun _ : ℕ => ([2] : List ℤ)) t)
        ∈ ({[1]} : Finset (List ℤ)) ∪ ({[2], [3]} : Finset (List ℤ))) ∧
    (DatabaseTask.insert (fun x : List ℤ => x) (fun _ : ℕ => ([2] : List ℤ))
        5 {[1]}).2.1 ≤ ({[2], [3]} : Finset (List ℤ)).card := by
  constructor
  · intro t
    simp
  · have h := DatabaseTask_insert_spec (fun x : List ℤ => x)
      (fun _ : ℕ => ([2] : List ℤ)) 5 {[1]} _ _ _ _ _ rfl
    exact h.2.2.2.2.2.2.2.2 {[2], [3]} (fun t => by simp)

/-! ## Claim C9: the cache never shrinks -/

lemma load_pk_preserves {K : Type} [DecidableEq K] (c : PkCache K)
    (tbl t : String) (qr : List K) (s : Finset K) (h : c t = some s) :
    load_pk_values_for_table c tbl qr t = some s := by
  unfold load_pk_values_for_table
  split
  · exact h
  · next hns =>
    dsimp only
    by_cases ht : t = tbl
    · subst ht
      rw [h] at hns
      simp at hns
    · rw [if_neg ht]
      exact h

lemma insert_loop_start_subset {R K : Type} [DecidableEq K] (proj : R → K)
    (gen : ℕ → R) (n fuel : ℕ) (pks₀ : Finset K) :
    pks₀ ⊆ (insert_loop proj gen n fuel 0 pks₀ 0 []).1 := by
  have hinv := insert_loop_invariant proj gen n fuel 0 0 pks₀ pks₀ []
    (by simp [writtenRows]) (by simp [writtenRows]) (by simp [writtenRows])
    (by simp [writtenRows]) rfl rfl (Nat.zero_le n)
    (insert_loop proj gen n fuel 0 pks₀ 0 []).1
    (insert_loop proj gen n fuel 0 pks₀ 0 []).2.1
    (insert_loop proj gen n fuel 0 pks₀ 0 []).2.2.1
    (insert_loop proj gen n fuel 0 pks₀ 0 []).2.2.2
    rfl
  rw [hinv.1]
  exact Finset.subset_union_left

/-- C9: for a table whose primary-key population is loaded, each
`DatabaseTask` operation (`load_pk_values_for_table`,
`get_table_row_count`, `point_read`, `insert`, `update`) leaves the cached
set for that table a superset of its previous value: keys are only ever
added, never removed. -/
theorem all_pks_never_shrinks {R K : Type} [DecidableEq K] (proj : R → K)
    (gen : ℕ → R) (n : ℕ) (c : PkCache K) (tbl t : String) (qr : List K)
    (s : Finset K) (h : c t = some s) :
    (∃ s2, load_pk_values_for_table c tbl qr t = some s2 ∧ s ⊆ s2) ∧
    (∃ s2, (get_table_row_count c tbl qr).1 t = some s2 ∧ s ⊆ s2) ∧
    (∃ s2, point_read_pk_effect c tbl qr t = some s2 ∧ s ⊆ s2) ∧
    (∃ s2, update_pk_effect c tbl qr t = some s2 ∧ s ⊆ s2) ∧
    (∃ s2, insert_pk_effect proj gen n c tbl qr t = some s2 ∧ s ⊆ s2) := by
  have hload := load_pk_preserves c tbl t qr s h
  refine ⟨⟨s, hload, Finset.Subset.refl s⟩, ⟨s, hload, Finset.Subset.refl s⟩,
    ⟨s, hload, Finset.Subset.refl s⟩, ⟨s, hload, Finset.Subset.refl s⟩, ?_⟩
  unfold insert_pk_effect
  by_cases ht : t = tbl
  · subst ht
    rw [if_pos rfl]
    refine ⟨_, rfl, ?_⟩
    have hstart : (load_pk_values_for_table c t qr t).getD ∅ = s := by
      rw [hload]
      rfl
    rw [hstart]
    exact insert_loop_start_subset proj gen n (n * 5) s
  · rw [if_neg ht]
    exact ⟨s, hload, Finset.Subset.refl s⟩

/-- Witness for C9: a cache holding `{[5]}` for table `"t1"`, touched by
operations targeting table `"t2"`. -/
theorem all_pks_never_shrinks_witness :
    ((fun x => if x = "t1" then some ({[5]} : Finset (List ℤ)) else none)
        "t1" = some ({[5]} : Finset (List ℤ))) ∧
    (∃ s2, insert_pk_effect (fun x : List ℤ => x) (fun _ : ℕ => ([7] : List ℤ)) 3
        (fun x => if x = "t1" then some ({[5]} : Finset (List ℤ)) else none)
        "t2" [] "t1" = some s2 ∧ ({[5]} : Finset (List ℤ)) ⊆ s2) :=
  ⟨rfl,
    (all_pks_never_shrinks (fun x : List ℤ => x) (fun _ : ℕ => ([7] : List ℤ)) 3
      (fun x => if x = "t1" then some ({[5]} : Finset (List ℤ)) else none)
      "t2" "t1" [] {[5]} rfl).2.2.2.2⟩

end DbFork